import Mathlib

/-!
Verification of the mention resolution and markup-injection engine of the
teams-mcp repository.

JavaScript strings are modelled as `List Char` (`Str`).  The regex
`@(?:"tok"|tok)` built in `processMentionsInHtml` always escapes every
regex metacharacter of `tok` (`escapeRegex` covers the complete set
`. * + ? ^ $ { } ( ) | [ ] \`), so the pattern matches the literal token;
the embedding therefore performs literal matching directly, with the quoted
alternative tried first, exactly as the regex alternation does.
`String.prototype.replace` semantics with a string replacement argument are
modelled faithfully, including the `$$`, `$&`, dollar-backtick and `$'`
substitution sequences (the source regex has no capture groups, so `$n` and
`$<` stay literal).
-/

namespace TeamsMcp

/-- Model of a JavaScript string: a list of characters. -/
abbrev Str := List Char

/-- JavaScript truthiness of a `string | undefined` value:
`undefined` and the empty string are falsy. -/
def truthyS : Option Str → Bool
  | none => false
  | some s => !s.isEmpty

/-- Model of `x !== undefined && x !== ""` as written in the Zod
refinement of `mentionsSchema`. -/
def presentNonEmpty : Option Str → Bool
  | none => false
  | some s => !(s == [])

/-- Model of the JavaScript `a || b` idiom on `string | undefined`:
returns `b` when `a` is `undefined` or empty. -/
def jsOr : Option Str → Str → Str
  | none, fb => fb
  | some s, fb => if s == [] then fb else s

-- ===========================================================================
-- Data model (src/types/mentions.ts)
-- ===========================================================================

/-- `MentionInput`: `{ mention, userId?, channelId? }`.  An absent optional
key is `none`. -/
structure MentionInput where
  mention : Str
  userId : Option Str
  channelId : Option Str
deriving DecidableEq, Repr

/-- Runtime shape of a `MentionMapping` object.  The TypeScript type is the
union `UserMentionMapping | ChannelMentionMapping`; at runtime the variants
are distinguished by key presence, so the model carries both keys as
options (`none` = key absent). -/
structure MentionMapping where
  mention : Str
  userId : Option Str
  channelId : Option Str
  displayName : Str
deriving DecidableEq, Repr

/-- The `mentioned` payload of a Graph API mention. -/
inductive Mentioned where
  | user (id : Str)
  | conversation (id : Str) (displayName : Str) (conversationIdentityType : Str)
deriving DecidableEq, Repr

/-- `GraphMention`: `{ id, mentionText, mentioned }`. -/
structure GraphMention where
  id : Nat
  mentionText : Str
  mentioned : Mentioned
deriving DecidableEq, Repr

-- ===========================================================================
-- Type guards and input conversion (src/types/mentions.ts)
-- ===========================================================================

/-- `isUserMentionMapping`: `"userId" in mapping`. -/
def isUserMentionMapping (mapping : MentionMapping) : Bool :=
  mapping.userId.isSome

/-- `isChannelMentionMapping`: `"channelId" in mapping`. -/
def isChannelMentionMapping (mapping : MentionMapping) : Bool :=
  mapping.channelId.isSome

/-- `convertMentionInputsToMappings`: maps each input, throwing on the first
input whose `userId` and `channelId` are both falsy.  The `userId` branch is
checked first. -/
def convertMentionInputsToMappings :
    List MentionInput → Except Str (List MentionMapping)
  | [] => .ok []
  | input :: rest =>
    if truthyS input.userId then
      match convertMentionInputsToMappings rest with
      | .ok ms =>
        .ok (⟨input.mention, input.userId, none, input.mention⟩ :: ms)
      | .error e => .error e
    else if truthyS input.channelId then
      match convertMentionInputsToMappings rest with
      | .ok ms =>
        .ok (⟨input.mention, none, input.channelId, input.mention⟩ :: ms)
      | .error e => .error e
    else
      .error ("Invalid mention: \"".toList ++ input.mention ++
        ("\" must have either userId or channelId".toList))

/-- Whether an `Except` result is a success. -/
def exceptOk {ε α : Type} : Except ε α → Bool
  | .ok _ => true
  | .error _ => false

/-- The whole-array refinement of `mentionsSchema` (src/tools/teams.ts):
every element must have exactly one of `userId` / `channelId` present and
non-empty. -/
def mentionsSchemaCheck (mentions : List MentionInput) : Bool :=
  mentions.all fun m =>
    let hasUserId := presentNonEmpty m.userId
    let hasChannelId := presentNonEmpty m.channelId
    (hasUserId && !hasChannelId) || (!hasUserId && hasChannelId)

-- ===========================================================================
-- Regex-replacement model (src/utils/users.ts, processMentionsInHtml)
-- ===========================================================================

/-- Strip an expected literal sequence from the front of a string; `none`
when the string does not start with it. -/
def stripFront : Str → Str → Option Str
  | [], s => some s
  | _ :: _, [] => none
  | p :: ps, c :: cs => if p = c then stripFront ps cs else none

/-- One attempted match of the regex `@(?:"tok"|tok)` at the current
position.  Returns the matched text and the remainder.  The quoted
alternative is tried first, exactly as the regex alternation does. -/
def matchMentionAt (tok : Str) (s : Str) : Option (Str × Str) :=
  match s with
  | [] => none
  | c :: rest =>
    if c = '@' then
      match stripFront ('"' :: (tok ++ ['"'])) rest with
      | some after => some ('@' :: '"' :: (tok ++ ['"']), after)
      | none =>
        match stripFront tok rest with
        | some after => some ('@' :: tok, after)
        | none => none
    else none

/-- `GetSubstitution` of `String.prototype.replace` for a pattern without
capture groups: `$$` is a literal dollar, `$&` the matched text, a dollar
followed by a backtick the text before the match, `$'` the text after it;
everything else is copied verbatim. -/
def getSubstitution (matched before after : Str) : Str → Str
  | [] => []
  | c :: rest =>
    if c = '$' then
      match rest with
      | [] => ['$']
      | d :: rest2 =>
        if d = '$' then '$' :: getSubstitution matched before after rest2
        else if d = '&' then matched ++ getSubstitution matched before after rest2
        else if d = Char.ofNat 96 then before ++ getSubstitution matched before after rest2
        else if d = Char.ofNat 39 then after ++ getSubstitution matched before after rest2
        else '$' :: d :: getSubstitution matched before after rest2
    else c :: getSubstitution matched before after rest

/-- Global-replace scan of `content.replace(mentionRegex, template)`.
`fuel` bounds the recursion (each step consumes at least one character, so
`fuel = s.length` is always enough); `before` is the original text already
scanned, needed for the dollar-backtick substitution. -/
def replaceGoF (tok tmpl : Str) : Nat → Str → Str → Str
  | 0, _, _ => []
  | _ + 1, _, [] => []
  | fuel + 1, before, c :: rest =>
    match matchMentionAt tok (c :: rest) with
    | some (matched, after) =>
      getSubstitution matched before after tmpl ++
        replaceGoF tok tmpl fuel (before ++ matched) after
    | none => c :: replaceGoF tok tmpl fuel (before ++ [c]) rest

/-- `content.replace(new RegExp(..., "g"), template)` with full JavaScript
replacement-string semantics. -/
def replaceMention (tok tmpl s : Str) : Str :=
  replaceGoF tok tmpl s.length [] s

/-- Same scan, but inserting the replacement text verbatim (no `$`
processing).  Used to state that the two agree when the template holds no
dollar sign. -/
def replaceLitF (tok repl : Str) : Nat → Str → Str
  | 0, _ => []
  | _ + 1, [] => []
  | fuel + 1, c :: rest =>
    match matchMentionAt tok (c :: rest) with
    | some (_, after) => repl ++ replaceLitF tok repl fuel after
    | none => c :: replaceLitF tok repl fuel rest

/-- Literal global replacement. -/
def replaceMentionLit (tok repl s : Str) : Str :=
  replaceLitF tok repl s.length s

/-- Number of matches the global scan finds. -/
def countMatchesF (tok : Str) : Nat → Str → Nat
  | 0, _ => 0
  | _ + 1, [] => 0
  | fuel + 1, c :: rest =>
    match matchMentionAt tok (c :: rest) with
    | some (_, after) => countMatchesF tok fuel after + 1
    | none => countMatchesF tok fuel rest

/-- Number of occurrences of `@tok` / `@"tok"` the scan replaces. -/
def countMatches (tok s : Str) : Nat :=
  countMatchesF tok s.length s

/-- The pieces of the content between (and around) the matches, in order. -/
def segmentsF (tok : Str) : Nat → Str → List Str
  | 0, _ => [[]]
  | _ + 1, [] => [[]]
  | fuel + 1, c :: rest =>
    match matchMentionAt tok (c :: rest) with
    | some (_, after) => [] :: segmentsF tok fuel after
    | none =>
      match segmentsF tok fuel rest with
      | [] => [[c]]
      | seg :: segs => (c :: seg) :: segs

/-- The inter-match segments of the content. -/
def segments (tok s : Str) : List Str :=
  segmentsF tok s.length s

/-- Join a list of pieces, inserting `sep` between consecutive pieces. -/
def joinSep (sep : Str) : List Str → Str
  | [] => []
  | [x] => x
  | x :: y :: rest => x ++ sep ++ joinSep sep (y :: rest)

/-- A string free of the replacement metacharacter `$`. -/
def noDollar (s : Str) : Bool :=
  s.all fun c => !(c == '$')

-- ===========================================================================
-- processMentionsInHtml (src/utils/users.ts)
-- ===========================================================================

/-- Decimal rendering of the sequence id interpolated into the template. -/
def digitChar : Nat → Char
  | 0 => '0' | 1 => '1' | 2 => '2' | 3 => '3' | 4 => '4'
  | 5 => '5' | 6 => '6' | 7 => '7' | 8 => '8' | _ => '9'

/-- Decimal rendering, on fuel (any fuel above the digit count works). -/
def natReprF : Nat → Nat → Str
  | 0, _ => []
  | fuel + 1, n =>
    if n < 10 then [digitChar n]
    else natReprF fuel (n / 10) ++ [digitChar (n % 10)]

/-- Decimal rendering of a natural number. -/
def natRepr (n : Nat) : Str :=
  natReprF (n + 1) n

/-- The replacement template `<at id="${mentionId}">${displayName}</at>`. -/
def mentionTemplate (mentionId : Nat) (displayName : Str) : Str :=
  ("<at id=\"".toList) ++ natRepr mentionId ++ ("\">".toList) ++
    displayName ++ ("</at>".toList)

/-- The Graph mention record pushed for the mapping at index `i`. -/
def mentionRecord (i : Nat) (mapping : MentionMapping) : GraphMention :=
  if isUserMentionMapping mapping then
    ⟨i, mapping.displayName, .user (mapping.userId.getD [])⟩
  else
    ⟨i, mapping.displayName,
      .conversation (mapping.channelId.getD []) mapping.displayName
        ("channel".toList)⟩

/-- One iteration of the `forEach` body of `processMentionsInHtml`:
replace all occurrences of the mapping's mention in the running content and
push the mapping's Graph record. -/
def processStep (acc : Str × List GraphMention) (im : Nat × MentionMapping) :
    Str × List GraphMention :=
  (replaceMention im.2.mention (mentionTemplate im.1 im.2.displayName) acc.1,
    acc.2 ++ [mentionRecord im.1 im.2])

/-- `processMentionsInHtml`: for each mapping (with its index) replace every
`@mention` / `@"mention"` occurrence by the template and push one Graph
mention record. -/
def processMentionsInHtml (html : Str) (mentionMappings : List MentionMapping) :
    Str × List GraphMention :=
  mentionMappings.enum.foldl processStep (html, [])

/-- The content update of `processStep` alone. -/
def contentStep (content : Str) (im : Nat × MentionMapping) : Str :=
  replaceMention im.2.mention (mentionTemplate im.1 im.2.displayName) content

/-- The content update with the template inserted verbatim (no `$`
interpretation). -/
def litStep (content : Str) (im : Nat × MentionMapping) : Str :=
  replaceMentionLit im.2.mention (mentionTemplate im.1 im.2.displayName) content

/-- The content pipeline of `processMentionsInHtml` with each template
inserted verbatim. -/
def processMentionsLit (html : Str) (mentionMappings : List MentionMapping) : Str :=
  mentionMappings.enum.foldl litStep html

-- ===========================================================================
-- Normalization loop of send_channel_message (src/tools/teams.ts)
-- ===========================================================================

/-- Allowed characters of the `[a-zA-Z0-9_-]+` class in the channel-id
pattern. -/
def isChannelIdChar (c : Char) : Bool :=
  ('a' ≤ c && c ≤ 'z') || ('A' ≤ c && c ≤ 'Z') || ('0' ≤ c && c ≤ '9') ||
    c = '_' || c = '-'

/-- `validateChannelIdFormat`'s test of `/^19:[a-zA-Z0-9_-]+@thread\.tacv2$/`.
The class excludes `@`, so the greedy run of class characters after `19:` is
exactly what the regex consumes before the literal tail, making the
decomposition below equivalent to the anchored regex. -/
def channelIdWellFormed (channelId : Str) : Bool :=
  match stripFront ("19:".toList) channelId with
  | none => false
  | some rest =>
    let body := rest.takeWhile isChannelIdChar
    let tail := rest.dropWhile isChannelIdChar
    !body.isEmpty && (tail == ("@thread.tacv2".toList))

/-- Non-fatal warnings the normalization loop prints with `console.warn`. -/
inductive MentionWarning where
  | lookupFailure (userId : Str)
  | channelFormatWarning (mentionText channelId : Str)
deriving DecidableEq, Repr

/-- Result of the directory lookup `client.api(/users/id).select("displayName")`:
`error` models a thrown request, `ok d` a response whose optional
`displayName` field is `d`. -/
abbrev LookupFn := Str → Except Unit (Option Str)

/-- The mention-normalization loop of `send_channel_message`: for each
input, the `userId` branch (checked first) looks up the display name and
falls back to the mention text when the lookup throws or yields a falsy
name; the `channelId` branch performs no lookup, warns when the channel id
fails the format check, and keeps the mention text as display name.  Inputs
with neither id are skipped.  Returns the mappings and the warnings, in
order. -/
def resolveMentionMappings (lookup : LookupFn) :
    List MentionInput → List MentionMapping × List MentionWarning
  | [] => ([], [])
  | mention :: rest =>
    let head : List MentionMapping × List MentionWarning :=
      if truthyS mention.userId then
        let uid := mention.userId.getD []
        match lookup uid with
        | .ok displayNameField =>
          ([⟨mention.mention, mention.userId, none,
              jsOr displayNameField mention.mention⟩], [])
        | .error _ =>
          ([⟨mention.mention, mention.userId, none, mention.mention⟩],
            [.lookupFailure uid])
      else if truthyS mention.channelId then
        let cid := mention.channelId.getD []
        (if channelIdWellFormed cid then
          ([⟨mention.mention, none, mention.channelId, mention.mention⟩], [])
        else
          ([⟨mention.mention, none, mention.channelId, mention.mention⟩],
            [.channelFormatWarning mention.mention cid]))
      else ([], [])
    let tail := resolveMentionMappings lookup rest
    (head.1 ++ tail.1, head.2 ++ tail.2)

/-- A lookup outcome that yields no usable display name: the request threw,
or the response had no `displayName`, or an empty one. -/
def lookupGaveNoName : Except Unit (Option Str) → Bool
  | .error _ => true
  | .ok none => true
  | .ok (some d) => d.isEmpty

-- ===========================================================================
-- Supporting lemmas
-- ===========================================================================

theorem stripFront_length {p s r : Str} (h : stripFront p s = some r) :
    p.length + r.length = s.length := by
  induction p generalizing s with
  | nil =>
    simp only [stripFront, Option.some.injEq] at h
    subst h; simp
  | cons a ps ih =>
    cases s with
    | nil => simp [stripFront] at h
    | cons c cs =>
      simp only [stripFront] at h
      split at h
      · have := ih h
        simp only [List.length_cons]
        omega
      · exact absurd h (by simp)

theorem stripFront_append (p t : Str) : stripFront p (p ++ t) = some t := by
  induction p with
  | nil => rfl
  | cons a ps ih => simp [stripFront, ih]

theorem stripFront_none_of_longer {p s : Str} (h : s.length < p.length) :
    stripFront p s = none := by
  cases hr : stripFront p s with
  | none => rfl
  | some r =>
    have := stripFront_length hr
    omega

theorem matchMentionAt_length {tok s matched after : Str}
    (h : matchMentionAt tok s = some (matched, after)) :
    after.length < s.length := by
  cases s with
  | nil => simp [matchMentionAt] at h
  | cons c rest =>
    simp only [matchMentionAt] at h
    split at h
    · cases hq : stripFront ('"' :: (tok ++ ['"'])) rest with
      | some a =>
        rw [hq] at h
        simp only [Option.some.injEq, Prod.mk.injEq] at h
        obtain ⟨h1, h2⟩ := h
        subst h2
        have := stripFront_length hq
        simp only [List.length_cons] at this ⊢
        omega
      | none =>
        rw [hq] at h
        cases hb : stripFront tok rest with
        | some a =>
          rw [hb] at h
          simp only [Option.some.injEq, Prod.mk.injEq] at h
          obtain ⟨h1, h2⟩ := h
          subst h2
          have := stripFront_length hb
          simp only [List.length_cons] at this ⊢
          omega
        | none => rw [hb] at h; exact absurd h (by simp)
    · exact absurd h (by simp)

theorem replaceGoF_nil (tok tmpl : Str) (fuel : Nat) (before : Str) :
    replaceGoF tok tmpl fuel before [] = [] := by
  cases fuel <;> rfl

theorem getSubstitution_noDollar (matched before after : Str) :
    ∀ tmpl : Str, noDollar tmpl = true →
      getSubstitution matched before after tmpl = tmpl := by
  intro tmpl
  induction tmpl with
  | nil => intro _; rfl
  | cons c rest ih =>
    intro h
    simp only [noDollar, List.all_cons, Bool.and_eq_true, Bool.not_eq_true'] at h
    obtain ⟨hc, hrest⟩ := h
    have hc' : ¬ c = '$' := by
      intro hx; subst hx; simp at hc
    have hrest' : noDollar rest = true := hrest
    unfold getSubstitution
    rw [if_neg hc', ih hrest']

theorem replaceGoF_eq_lit {tok tmpl : Str} (hd : noDollar tmpl = true) :
    ∀ fuel s before, s.length ≤ fuel →
      replaceGoF tok tmpl fuel before s = replaceLitF tok tmpl fuel s := by
  intro fuel
  induction fuel with
  | zero => intro s before _; rfl
  | succ n ih =>
    intro s before hs
    cases s with
    | nil => rfl
    | cons c rest =>
      cases hm : matchMentionAt tok (c :: rest) with
      | some pr =>
        obtain ⟨matched, after⟩ := pr
        have hlen := matchMentionAt_length hm
        simp only [List.length_cons] at hlen hs
        simp only [replaceGoF, replaceLitF, hm]
        rw [getSubstitution_noDollar matched before after tmpl hd,
          ih after _ (by omega)]
      | none =>
        simp only [List.length_cons] at hs
        simp only [replaceGoF, replaceLitF, hm]
        rw [ih rest _ (by omega)]

theorem segmentsF_ne_nil (tok : Str) (fuel : Nat) (s : Str) :
    segmentsF tok fuel s ≠ [] := by
  cases fuel with
  | zero => simp [segmentsF]
  | succ n =>
    cases s with
    | nil => simp [segmentsF]
    | cons c rest =>
      simp only [segmentsF]
      cases matchMentionAt tok (c :: rest) with
      | some pr => simp
      | none =>
        cases segmentsF tok n rest with
        | nil => simp
        | cons seg segs => simp

theorem joinSep_cons_cons (sep x y : Str) (t : List Str) :
    joinSep sep (x :: y :: t) = x ++ sep ++ joinSep sep (y :: t) := rfl

theorem replaceLitF_structure (tok repl : Str) :
    ∀ fuel s, s.length ≤ fuel →
      replaceLitF tok repl fuel s = joinSep repl (segmentsF tok fuel s) ∧
      (segmentsF tok fuel s).length = countMatchesF tok fuel s + 1 := by
  intro fuel
  induction fuel with
  | zero => intro s _; exact ⟨rfl, rfl⟩
  | succ n ih =>
    intro s hs
    cases s with
    | nil => exact ⟨rfl, rfl⟩
    | cons c rest =>
      cases hm : matchMentionAt tok (c :: rest) with
      | some pr =>
        obtain ⟨matched, after⟩ := pr
        have hlen := matchMentionAt_length hm
        simp only [List.length_cons] at hlen hs
        obtain ⟨ih1, ih2⟩ := ih after (by omega)
        simp only [replaceLitF, segmentsF, countMatchesF, hm]
        constructor
        · rw [ih1]
          cases hseg : segmentsF tok n after with
          | nil => exact absurd hseg (segmentsF_ne_nil tok n after)
          | cons seg segs => simp [joinSep_cons_cons]
        · simp [ih2]
      | none =>
        simp only [List.length_cons] at hs
        obtain ⟨ih1, ih2⟩ := ih rest (by omega)
        simp only [replaceLitF, segmentsF, countMatchesF, hm]
        cases hseg : segmentsF tok n rest with
        | nil => exact absurd hseg (segmentsF_ne_nil tok n rest)
        | cons seg segs =>
          rw [hseg] at ih1 ih2
          constructor
          · rw [ih1]
            cases segs with
            | nil => rfl
            | cons y t => simp [joinSep_cons_cons]
          · simpa using ih2

theorem replaceGoF_of_no_match (tok tmpl : Str) :
    ∀ fuel s before, s.length ≤ fuel → countMatchesF tok fuel s = 0 →
      replaceGoF tok tmpl fuel before s = s := by
  intro fuel
  induction fuel with
  | zero =>
    intro s before hs _
    cases s with
    | nil => rfl
    | cons c rest => simp at hs
  | succ n ih =>
    intro s before hs hc
    cases s with
    | nil => rfl
    | cons c rest =>
      cases hm : matchMentionAt tok (c :: rest) with
      | some pr =>
        simp only [countMatchesF, hm] at hc
        omega
      | none =>
        simp only [countMatchesF, hm] at hc
        simp only [replaceGoF, hm]
        simp only [List.length_cons] at hs
        rw [ih rest _ (by omega) hc]

theorem mentionRecord_id (i : Nat) (m : MentionMapping) :
    (mentionRecord i m).id = i := by
  unfold mentionRecord
  split <;> rfl

theorem foldl_processStep_records :
    ∀ (pairs : List (Nat × MentionMapping)) (content : Str)
      (acc : List GraphMention),
      (pairs.foldl processStep (content, acc)).2
        = acc ++ pairs.map fun im => mentionRecord im.1 im.2 := by
  intro pairs
  induction pairs with
  | nil => intro content acc; simp
  | cons p t ih =>
    intro content acc
    simp only [List.foldl_cons, List.map_cons]
    rw [ih]
    simp [processStep]

theorem foldl_processStep_content :
    ∀ (pairs : List (Nat × MentionMapping)) (content : Str)
      (acc : List GraphMention),
      (pairs.foldl processStep (content, acc)).1
        = pairs.foldl contentStep content := by
  intro pairs
  induction pairs with
  | nil => intro content acc; rfl
  | cons p t ih =>
    intro content acc
    simp only [List.foldl_cons]
    rw [ih]
    rfl

theorem processMentionsInHtml_records (html : Str) (ms : List MentionMapping) :
    (processMentionsInHtml html ms).2
      = ms.enum.map fun im => mentionRecord im.1 im.2 := by
  unfold processMentionsInHtml
  rw [foldl_processStep_records]
  simp

theorem processMentionsInHtml_content (html : Str) (ms : List MentionMapping) :
    (processMentionsInHtml html ms).1 = ms.enum.foldl contentStep html := by
  unfold processMentionsInHtml
  rw [foldl_processStep_content]

theorem enumFrom_map_record_id :
    ∀ (ms : List MentionMapping) (k : Nat),
      ((ms.enumFrom k).map fun im => (mentionRecord im.1 im.2).id)
        = List.range' k ms.length := by
  intro ms
  induction ms with
  | nil => intro k; rfl
  | cons m t ih =>
    intro k
    simp only [List.enumFrom_cons, List.map_cons, List.length_cons,
      List.range'_succ]
    rw [mentionRecord_id, ih]

theorem map_enumFrom_getElem? {β : Type} (f : Nat × MentionMapping → β) :
    ∀ (ms : List MentionMapping) (k i : Nat) (m : MentionMapping),
      ms[i]? = some m →
      ((ms.enumFrom k).map f)[i]? = some (f (k + i, m)) := by
  intro ms
  induction ms with
  | nil => intro k i m h; simp at h
  | cons x t ih =>
    intro k i m h
    cases i with
    | zero =>
      simp only [List.getElem?_cons_zero, Option.some.injEq] at h
      subst h
      simp [List.enumFrom_cons]
    | succ j =>
      simp only [List.getElem?_cons_succ] at h
      have := ih (k + 1) j m h
      simp only [List.enumFrom_cons, List.map_cons, List.getElem?_cons_succ]
      rw [this]
      ring_nf

theorem enumFrom_all_snd (p : MentionMapping → Bool) :
    ∀ (ms : List MentionMapping) (k : Nat),
      ((ms.enumFrom k).all fun im => p im.2) = ms.all p := by
  intro ms
  induction ms with
  | nil => intro k; rfl
  | cons m t ih =>
    intro k
    simp only [List.enumFrom_cons, List.all_cons]
    rw [ih]

theorem noDollar_append (a b : Str) :
    noDollar (a ++ b) = (noDollar a && noDollar b) := by
  simp [noDollar]

theorem digitChar_ne_dollar (n : Nat) : (digitChar n == '$') = false := by
  match n with
  | 0 | 1 | 2 | 3 | 4 | 5 | 6 | 7 | 8 => rfl
  | _ + 9 => rfl

theorem noDollar_natReprF : ∀ (fuel n : Nat), noDollar (natReprF fuel n) = true := by
  intro fuel
  induction fuel with
  | zero => intro n; rfl
  | succ k ih =>
    intro n
    unfold natReprF
    split
    · simp [noDollar, digitChar_ne_dollar]
    · rw [noDollar_append, ih]
      simp [noDollar, digitChar_ne_dollar]

theorem noDollar_mentionTemplate (i : Nat) (name : Str)
    (h : noDollar name = true) :
    noDollar (mentionTemplate i name) = true := by
  simp only [mentionTemplate, natRepr, noDollar_append, noDollar_natReprF, h,
    Bool.and_true, Bool.true_and]
  decide

theorem resolve_append (lookup : LookupFn) :
    ∀ xs ys : List MentionInput,
      resolveMentionMappings lookup (xs ++ ys)
        = ((resolveMentionMappings lookup xs).1
            ++ (resolveMentionMappings lookup ys).1,
          (resolveMentionMappings lookup xs).2
            ++ (resolveMentionMappings lookup ys).2) := by
  intro xs
  induction xs with
  | nil => intro ys; simp [resolveMentionMappings]
  | cons x t ih =>
    intro ys
    simp only [List.cons_append, resolveMentionMappings, List.append_eq]
    rw [ih]
    simp

theorem resolve_user_fallback (lookup : LookupFn) (m : MentionInput)
    (hu : truthyS m.userId = true)
    (hfail : lookupGaveNoName (lookup (m.userId.getD [])) = true) :
    (resolveMentionMappings lookup [m]).1
      = [⟨m.mention, m.userId, none, m.mention⟩] := by
  simp only [resolveMentionMappings, hu, if_true]
  cases hl : lookup (m.userId.getD []) with
  | error e => simp
  | ok d =>
    simp only [lookupGaveNoName, hl] at hfail
    cases d with
    | none => simp [jsOr]
    | some dd =>
      have hdd : dd = [] := by simpa using hfail
      subst hdd
      simp [jsOr]

theorem resolve_channel (lookup : LookupFn) (m : MentionInput) (c : Str)
    (hu : m.userId = none) (hc : m.channelId = some c)
    (hne : c.isEmpty = false) :
    resolveMentionMappings lookup [m]
      = ([⟨m.mention, none, some c, m.mention⟩],
        if channelIdWellFormed c then []
        else [.channelFormatWarning m.mention c]) := by
  have hu' : truthyS m.userId = false := by rw [hu]; rfl
  have hc' : truthyS m.channelId = true := by rw [hc]; simp [truthyS, hne]
  simp only [resolveMentionMappings, hu', hc', Bool.false_eq_true,
    if_false, if_true]
  rw [hc]
  simp only [Option.getD_some]
  by_cases hw : channelIdWellFormed c = true <;> simp [hw]

theorem contentStep_eq_litStep (content : Str) (im : Nat × MentionMapping)
    (h : noDollar im.2.displayName = true) :
    contentStep content im = litStep content im := by
  unfold contentStep litStep replaceMention replaceMentionLit
  exact replaceGoF_eq_lit (noDollar_mentionTemplate im.1 im.2.displayName h)
    content.length content [] (Nat.le_refl _)

theorem foldl_content_eq_lit :
    ∀ (pairs : List (Nat × MentionMapping)) (html : Str),
      (pairs.all fun im => noDollar im.2.displayName) = true →
      pairs.foldl contentStep html = pairs.foldl litStep html := by
  intro pairs
  induction pairs with
  | nil => intro html _; rfl
  | cons p t ih =>
    intro html hall
    simp only [List.all_cons, Bool.and_eq_true] at hall
    obtain ⟨hp, ht⟩ := hall
    simp only [List.foldl_cons]
    rw [contentStep_eq_litStep html p hp, ih _ ht]

-- ===========================================================================
-- Claims
-- ===========================================================================

/-- C1 counterexample: an input with both `userId` and `channelId` present
and non-empty is rejected by the schema refinement but accepted by
`convertMentionInputsToMappings`, which silently takes the user branch —
the two validation paths are not identical and the library path does not
enforce the XOR rule. -/
theorem C1_counterexample :
    mentionsSchemaCheck
      [⟨("Test".toList), some ("user-123".toList),
        some ("19:channel@thread.tacv2".toList)⟩] = false ∧
    convertMentionInputsToMappings
      [⟨("Test".toList), some ("user-123".toList),
        some ("19:channel@thread.tacv2".toList)⟩]
      = .ok [⟨("Test".toList), some ("user-123".toList), none, ("Test".toList)⟩] :=
  ⟨rfl, rfl⟩

/-- C1 (amended): the schema refinement accepts a list iff every element
satisfies the XOR rule (exactly one of `userId` / `channelId` present and
non-empty), while the library conversion function accepts iff every element
has at least one of the two set and non-empty (the user branch taking
priority when both are set); the two paths agree on rejecting
neither-set elements but differ on both-set elements. -/
theorem C1_amended_validation_paths (inputs : List MentionInput) :
    (mentionsSchemaCheck inputs
      = inputs.all fun m =>
          (presentNonEmpty m.userId).xor (presentNonEmpty m.channelId)) ∧
    (exceptOk (convertMentionInputsToMappings inputs)
      = inputs.all fun m => truthyS m.userId || truthyS m.channelId) := by
  constructor
  · induction inputs with
    | nil => rfl
    | cons i t ih =>
      simp only [mentionsSchemaCheck, List.all_cons] at ih ⊢
      rw [ih]
      cases presentNonEmpty i.userId <;> cases presentNonEmpty i.channelId <;> rfl
  · induction inputs with
    | nil => rfl
    | cons i t ih =>
      simp only [List.all_cons]
      rw [← ih]
      by_cases hu : truthyS i.userId = true
      · simp only [convertMentionInputsToMappings, hu, if_true, Bool.true_or]
        cases hrec : convertMentionInputsToMappings t <;> simp [exceptOk]
      · have hu' : truthyS i.userId = false := by
          cases h : truthyS i.userId
          · rfl
          · exact absurd h hu
        by_cases hc : truthyS i.channelId = true
        · simp only [convertMentionInputsToMappings, hu', Bool.false_eq_true,
            if_false, hc, if_true, Bool.false_or, Bool.true_and]
          cases hrec : convertMentionInputsToMappings t <;> simp [exceptOk]
        · have hc' : truthyS i.channelId = false := by
            cases h : truthyS i.channelId
            · rfl
            · exact absurd h hc
          simp [convertMentionInputsToMappings, hu', hc', exceptOk]

/-- C2 counterexample: a token containing a space IS matched and replaced in
its bare form — content `Hi @John Doe!` is rewritten, not left unchanged,
for the reference with token `John Doe`. -/
theorem C2_counterexample :
    (processMentionsInHtml ("Hi @John Doe!".toList)
      [⟨("John Doe".toList), some ("u1".toList), none, ("John Doe".toList)⟩]).1
      = ("Hi <at id=\"0\">John Doe</at>!".toList) ∧
    ("Hi <at id=\"0\">John Doe</at>!".toList) ≠ ("Hi @John Doe!".toList) := by
  exact ⟨rfl, by decide⟩

/-- C2 (amended): both the bare form `@token` and the quoted form
`@"token"` occurring in the content are replaced, for every token —
including tokens containing spaces: the bare form of a space-containing
token is also matched and replaced, not left unchanged. -/
theorem C2_amended_bare_and_quoted_replaced (m : MentionMapping)
    (h : noDollar m.displayName = true) :
    (processMentionsInHtml ('@' :: m.mention) [m]).1
      = mentionTemplate 0 m.displayName ∧
    (processMentionsInHtml ('@' :: '"' :: (m.mention ++ ['"'])) [m]).1
      = mentionTemplate 0 m.displayName := by
  have hd : noDollar (mentionTemplate 0 m.displayName) = true :=
    noDollar_mentionTemplate 0 m.displayName h
  constructor
  · show replaceMention m.mention (mentionTemplate 0 m.displayName)
      ('@' :: m.mention) = mentionTemplate 0 m.displayName
    have hq : stripFront ('"' :: (m.mention ++ ['"'])) m.mention = none :=
      stripFront_none_of_longer
        (by simp only [List.length_cons, List.length_append]; omega)
    have hb : stripFront m.mention m.mention = some [] := by
      simpa using stripFront_append m.mention []
    have hm : matchMentionAt m.mention ('@' :: m.mention)
        = some ('@' :: m.mention, []) := by
      simp [matchMentionAt, hq, hb]
    unfold replaceMention
    simp only [List.length_cons, replaceGoF, hm]
    rw [getSubstitution_noDollar _ _ _ _ hd]
    simp [replaceGoF_nil]
  · show replaceMention m.mention (mentionTemplate 0 m.displayName)
      ('@' :: '"' :: (m.mention ++ ['"'])) = mentionTemplate 0 m.displayName
    have hq : stripFront ('"' :: (m.mention ++ ['"']))
        ('"' :: (m.mention ++ ['"'])) = some [] := by
      simpa using stripFront_append ('"' :: (m.mention ++ ['"'])) []
    have hm : matchMentionAt m.mention ('@' :: '"' :: (m.mention ++ ['"']))
        = some ('@' :: '"' :: (m.mention ++ ['"']), []) := by
      simp [matchMentionAt, hq]
    unfold replaceMention
    simp only [List.length_cons, replaceGoF, hm]
    rw [getSubstitution_noDollar _ _ _ _ hd]
    simp [replaceGoF_nil]

/-- C2 witness: both forms of the space-containing token `John Doe` are
replaced by the span. -/
theorem C2_witness :
    (processMentionsInHtml ('@' :: ("John Doe".toList))
      [⟨("John Doe".toList), some ("u1".toList), none, ("John Doe".toList)⟩]).1
      = mentionTemplate 0 ("John Doe".toList) ∧
    (processMentionsInHtml ('@' :: '"' :: ("John Doe".toList ++ ['"']))
      [⟨("John Doe".toList), some ("u1".toList), none, ("John Doe".toList)⟩]).1
      = mentionTemplate 0 ("John Doe".toList) :=
  C2_amended_bare_and_quoted_replaced
    ⟨("John Doe".toList), some ("u1".toList), none, ("John Doe".toList)⟩ (by decide)

/-- C8: injecting an empty reference list returns the content unchanged and
an empty record list. -/
theorem C8_empty_mentions_identity (html : Str) :
    processMentionsInHtml html [] = (html, []) := rfl

/-- C9: a mapping carrying both a `userId` and a `channelId` key satisfies
both type guards, and `processMentionsInHtml` classifies it as a user
mention, emitting a `user` target and ignoring the `channelId` — the user
branch takes priority. -/
theorem C9_user_branch_priority (html mention uid cid dn : Str) :
    isUserMentionMapping ⟨mention, some uid, some cid, dn⟩ = true ∧
    isChannelMentionMapping ⟨mention, some uid, some cid, dn⟩ = true ∧
    (processMentionsInHtml html [⟨mention, some uid, some cid, dn⟩]).2
      = [⟨0, dn, .user uid⟩] :=
  ⟨rfl, rfl, rfl⟩

/-- C3: for every content and every list of N mappings,
`processMentionsInHtml` emits exactly N records whose ids are `0..N-1` in
input-list order, independent of text occurrences; and a single reference
whose token never matches still yields its record while the content stays
unchanged (no markup span is added). -/
theorem C3_sequence_ids_dense (html : Str) (ms : List MentionMapping) :
    ((processMentionsInHtml html ms).2.length = ms.length ∧
      (processMentionsInHtml html ms).2.map GraphMention.id
        = List.range ms.length) ∧
    (∀ m : MentionMapping, countMatches m.mention html = 0 →
      processMentionsInHtml html [m] = (html, [mentionRecord 0 m])) := by
  constructor
  · have hrec := processMentionsInHtml_records html ms
    have hids : (processMentionsInHtml html ms).2.map GraphMention.id
        = List.range ms.length := by
      rw [hrec, List.map_map, List.enum_eq_enumFrom]
      show List.map (fun im => (mentionRecord im.1 im.2).id)
        (List.enumFrom 0 ms) = List.range ms.length
      rw [enumFrom_map_record_id ms 0, ← List.range_eq_range']
    constructor
    · have := congrArg List.length hids
      simpa using this
    · exact hids
  · intro m hcount
    have hcontent : replaceMention m.mention
        (mentionTemplate 0 m.displayName) html = html := by
      unfold replaceMention
      exact replaceGoF_of_no_match m.mention _ html.length html []
        (Nat.le_refl _) hcount
    show (replaceMention m.mention (mentionTemplate 0 m.displayName) html,
      [mentionRecord 0 m]) = (html, [mentionRecord 0 m])
    rw [hcontent]

/-- C3 witness: two mappings on content mentioning them in reverse order
still get ids 0 and 1 in input order, and a never-matching reference leaves
the content unchanged while still producing its record. -/
theorem C3_witness :
    ((processMentionsInHtml ("<p>@b @a</p>".toList)
      [⟨("a".toList), some ("u1".toList), none, ("A".toList)⟩,
       ⟨("b".toList), none, some ("c1".toList), ("B".toList)⟩]).2.map GraphMention.id
      = List.range 2) ∧
    processMentionsInHtml ("hello".toList)
      [⟨("zz".toList), some ("u".toList), none, ("Z".toList)⟩]
      = ("hello".toList,
        [mentionRecord 0 ⟨("zz".toList), some ("u".toList), none, ("Z".toList)⟩]) := by
  constructor
  · exact (C3_sequence_ids_dense ("<p>@b @a</p>".toList)
      [⟨("a".toList), some ("u1".toList), none, ("A".toList)⟩,
       ⟨("b".toList), none, some ("c1".toList), ("B".toList)⟩]).1.2
  · exact (C3_sequence_ids_dense ("hello".toList) []).2
      ⟨("zz".toList), some ("u".toList), none, ("Z".toList)⟩ (by decide)

/-- C4 counterexample: with references `[a ↦ x, ab ↦ y]` and content `@ab`,
the token `ab` occurs once in the content (K = 1), yet the output content
contains no span for sequence id 1 — the earlier replacement for token `a`
destroyed the occurrence — while two records are still emitted.  The claim
fails for multi-reference lists with interfering tokens. -/
theorem C4_counterexample :
    countMatches ("ab".toList) ("@ab".toList) = 1 ∧
    (processMentionsInHtml ("@ab".toList)
      [⟨("a".toList), some ("u".toList), none, ("x".toList)⟩,
       ⟨("ab".toList), some ("v".toList), none, ("y".toList)⟩]).1
      = ("<at id=\"0\">x</at>b".toList) ∧
    ¬ (mentionTemplate 1 ("y".toList) <:+:
        (processMentionsInHtml ("@ab".toList)
          [⟨("a".toList), some ("u".toList), none, ("x".toList)⟩,
           ⟨("ab".toList), some ("v".toList), none, ("y".toList)⟩]).1) ∧
    (processMentionsInHtml ("@ab".toList)
      [⟨("a".toList), some ("u".toList), none, ("x".toList)⟩,
       ⟨("ab".toList), some ("v".toList), none, ("y".toList)⟩]).2.length = 2 := by
  refine ⟨rfl, rfl, by decide, rfl⟩

/-- C4 (amended): for a single-reference list whose display name contains
no `$`, if the token occurs K > 0 times in the content then the output
content is exactly the content's inter-match segments joined by K copies of
that reference's span (sequence id 0), and exactly one record is
emitted. -/
theorem C4_amended_repetition (m : MentionMapping) (html : Str)
    (h1 : noDollar m.displayName = true)
    (_h2 : 0 < countMatches m.mention html) :
    ((processMentionsInHtml html [m]).1
      = joinSep (mentionTemplate 0 m.displayName) (segments m.mention html) ∧
     (segments m.mention html).length = countMatches m.mention html + 1) ∧
    (processMentionsInHtml html [m]).2 = [mentionRecord 0 m] := by
  have hd : noDollar (mentionTemplate 0 m.displayName) = true :=
    noDollar_mentionTemplate 0 m.displayName h1
  have hstruct := replaceLitF_structure m.mention
    (mentionTemplate 0 m.displayName) html.length html (Nat.le_refl _)
  refine ⟨⟨?_, hstruct.2⟩, rfl⟩
  show replaceMention m.mention (mentionTemplate 0 m.displayName) html = _
  unfold replaceMention
  rw [replaceGoF_eq_lit hd html.length html [] (Nat.le_refl _)]
  exact hstruct.1

/-- C4 witness: the channel token `General` occurring twice yields two
spans with id 0 around the three segments, and one record. -/
theorem C4_witness :
    ((processMentionsInHtml ("<p>@General says: go to @General now</p>".toList)
      [⟨("General".toList), none, some ("19:abc@thread.tacv2".toList),
        ("General".toList)⟩]).1
      = joinSep (mentionTemplate 0 ("General".toList))
          (segments ("General".toList)
            ("<p>@General says: go to @General now</p>".toList)) ∧
     (segments ("General".toList)
        ("<p>@General says: go to @General now</p>".toList)).length
      = countMatches ("General".toList)
          ("<p>@General says: go to @General now</p>".toList) + 1) ∧
    (processMentionsInHtml ("<p>@General says: go to @General now</p>".toList)
      [⟨("General".toList), none, some ("19:abc@thread.tacv2".toList),
        ("General".toList)⟩]).2
      = [mentionRecord 0
          ⟨("General".toList), none, some ("19:abc@thread.tacv2".toList),
            ("General".toList)⟩] :=
  C4_amended_repetition
    ⟨("General".toList), none, some ("19:abc@thread.tacv2".toList),
      ("General".toList)⟩
    ("<p>@General says: go to @General now</p>".toList)
    (by decide) (by decide)

/-- C5: the record at position i of the output is determined by the
variant of the i-th mapping: a user mapping (userId present) yields
`{ id := i, mentionText := displayName, mentioned := user id }`, and a
channel mapping (userId absent, channelId present) yields
`{ id := i, mentionText := displayName, mentioned := conversation with
kind "channel" }`. -/
theorem C5_variant_dispatch (html : Str) (ms : List MentionMapping)
    (i : Nat) (m : MentionMapping) (hm : ms[i]? = some m) :
    (∀ u : Str, m.userId = some u →
      ((processMentionsInHtml html ms).2)[i]?
        = some ⟨i, m.displayName, .user u⟩) ∧
    (∀ c : Str, m.userId = none → m.channelId = some c →
      ((processMentionsInHtml html ms).2)[i]?
        = some ⟨i, m.displayName,
            .conversation c m.displayName ("channel".toList)⟩) := by
  have hrec : ((processMentionsInHtml html ms).2)[i]?
      = some (mentionRecord i m) := by
    rw [processMentionsInHtml_records, List.enum_eq_enumFrom]
    have := map_enumFrom_getElem?
      (fun im => mentionRecord im.1 im.2) ms 0 i m hm
    simpa using this
  constructor
  · intro u hu
    rw [hrec]
    unfold mentionRecord isUserMentionMapping
    rw [hu]
    simp
  · intro c hu hc
    rw [hrec]
    unfold mentionRecord isUserMentionMapping
    rw [hu, hc]
    simp

/-- C5 witness: a user mapping and a channel mapping produce the two
record shapes at their respective indices. -/
theorem C5_witness :
    ((processMentionsInHtml ("<p>hi</p>".toList)
      [⟨("alice".toList), some ("u1".toList), none, ("Alice".toList)⟩,
       ⟨("General".toList), none, some ("c1".toList), ("General".toList)⟩]).2)[0]?
      = some ⟨0, ("Alice".toList), .user ("u1".toList)⟩ ∧
    ((processMentionsInHtml ("<p>hi</p>".toList)
      [⟨("alice".toList), some ("u1".toList), none, ("Alice".toList)⟩,
       ⟨("General".toList), none, some ("c1".toList), ("General".toList)⟩]).2)[1]?
      = some ⟨1, ("General".toList),
          .conversation ("c1".toList) ("General".toList) ("channel".toList)⟩ := by
  constructor
  · exact (C5_variant_dispatch ("<p>hi</p>".toList)
      [⟨("alice".toList), some ("u1".toList), none, ("Alice".toList)⟩,
       ⟨("General".toList), none, some ("c1".toList), ("General".toList)⟩]
      0 ⟨("alice".toList), some ("u1".toList), none, ("Alice".toList)⟩
      (by rfl)).1 ("u1".toList) rfl
  · exact (C5_variant_dispatch ("<p>hi</p>".toList)
      [⟨("alice".toList), some ("u1".toList), none, ("Alice".toList)⟩,
       ⟨("General".toList), none, some ("c1".toList), ("General".toList)⟩]
      1 ⟨("General".toList), none, some ("c1".toList), ("General".toList)⟩
      (by rfl)).2 ("c1".toList) rfl rfl

/-- C6: in the normalization loop, a user reference whose directory lookup
throws, or returns an absent or empty display name, gets the caller's
mention token as its display name, and the rest of the batch (before and
after it) is normalized exactly as it would be on its own — the failure
never aborts the operation. -/
theorem C6_lookup_fallback (lookup : LookupFn) (pre post : List MentionInput)
    (m : MentionInput) (hu : truthyS m.userId = true)
    (hfail : lookupGaveNoName (lookup (m.userId.getD [])) = true) :
    (resolveMentionMappings lookup (pre ++ m :: post)).1
      = (resolveMentionMappings lookup pre).1
        ++ ⟨m.mention, m.userId, none, m.mention⟩
          :: (resolveMentionMappings lookup post).1 := by
  have hsplit : pre ++ m :: post = pre ++ [m] ++ post := by simp
  rw [hsplit, resolve_append, resolve_append]
  simp only [resolve_user_fallback lookup m hu hfail]
  simp

/-- C6 witness: with a lookup that always throws, the single user
reference resolves to a mapping labelled by its own token. -/
theorem C6_witness :
    (resolveMentionMappings (fun _ => .error ())
      [⟨("John".toList), some ("u1".toList), none⟩]).1
      = [⟨("John".toList), some ("u1".toList), none, ("John".toList)⟩] := by
  have h := C6_lookup_fallback (fun _ => .error ()) [] []
    ⟨("John".toList), some ("u1".toList), none⟩ (by decide) (by decide)
  simpa using h

/-- C7: in the normalization loop, a channel reference is labelled by the
caller's token text, passes through with its channel id unchanged whether
or not the id matches `19:<chars>@thread.tacv2` (a mismatch only records a
warning), the rest of the batch is unaffected, and no lookup is performed
for it: its resolution is the same under every lookup function. -/
theorem C7_channel_normalization (lookup : LookupFn)
    (pre post : List MentionInput) (m : MentionInput) (c : Str)
    (hu : m.userId = none) (hc : m.channelId = some c)
    (hne : c.isEmpty = false) :
    ((resolveMentionMappings lookup (pre ++ m :: post)).1
      = (resolveMentionMappings lookup pre).1
        ++ ⟨m.mention, none, some c, m.mention⟩
          :: (resolveMentionMappings lookup post).1) ∧
    ((resolveMentionMappings lookup (pre ++ m :: post)).2
      = (resolveMentionMappings lookup pre).2
        ++ (if channelIdWellFormed c then []
            else [.channelFormatWarning m.mention c])
        ++ (resolveMentionMappings lookup post).2) ∧
    (∀ lookup' : LookupFn,
      resolveMentionMappings lookup' [m] = resolveMentionMappings lookup [m]) := by
  have hsplit : pre ++ m :: post = pre ++ [m] ++ post := by simp
  have hone := resolve_channel lookup m c hu hc hne
  refine ⟨?_, ?_, ?_⟩
  · rw [hsplit, resolve_append, resolve_append, hone]
    simp
  · rw [hsplit, resolve_append, resolve_append, hone]
  · intro lookup'
    rw [hone, resolve_channel lookup' m c hu hc hne]

/-- C7 witness: a channel reference with a malformed id resolves, under
two different lookups, to the unchanged mapping plus a format warning. -/
theorem C7_witness :
    ((resolveMentionMappings (fun _ => .error ())
      [⟨("General".toList), none, some ("bogus".toList)⟩]).1
      = [⟨("General".toList), none, some ("bogus".toList), ("General".toList)⟩]) ∧
    ((resolveMentionMappings (fun _ => .error ())
      [⟨("General".toList), none, some ("bogus".toList)⟩]).2
      = [.channelFormatWarning ("General".toList) ("bogus".toList)]) ∧
    resolveMentionMappings (fun _ => .ok none)
        [⟨("General".toList), none, some ("bogus".toList)⟩]
      = resolveMentionMappings (fun _ => .error ())
        [⟨("General".toList), none, some ("bogus".toList)⟩] := by
  have h := C7_channel_normalization (fun _ => .error ()) [] []
    ⟨("General".toList), none, some ("bogus".toList)⟩ ("bogus".toList)
    rfl rfl (by decide)
  refine ⟨?_, ?_, h.2.2 (fun _ => .ok none)⟩
  · simpa using h.1
  · have h2 := h.2.1
    simp only [List.nil_append] at h2
    rw [h2]
    decide

/-- C10: the replacement template is interpreted literally whenever it
contains no `$`: the substitution function is the identity on dollar-free
templates, and for mappings whose display names are dollar-free the whole
content pipeline of `processMentionsInHtml` equals verbatim template
insertion — each replaced occurrence becomes exactly
`<at id="i">displayName</at>`. -/
theorem C10_literal_template_insertion :
    (∀ matched before after tmpl : Str, noDollar tmpl = true →
      getSubstitution matched before after tmpl = tmpl) ∧
    (∀ (html : Str) (ms : List MentionMapping),
      (ms.all fun m => noDollar m.displayName) = true →
      (processMentionsInHtml html ms).1 = processMentionsLit html ms) := by
  constructor
  · exact fun matched before after tmpl h =>
      getSubstitution_noDollar matched before after tmpl h
  · intro html ms hall
    rw [processMentionsInHtml_content]
    unfold processMentionsLit
    apply foldl_content_eq_lit
    rw [List.enum_eq_enumFrom]
    exact (enumFrom_all_snd (fun mm => noDollar mm.displayName) ms 0).trans hall

/-- C10 witness: with the dollar-free display name `Bob`, the pipeline
content equals verbatim insertion, and the substitution function leaves a
dollar-free template untouched. -/
theorem C10_witness :
    (processMentionsInHtml ("hi @bob".toList)
      [⟨("bob".toList), some ("u".toList), none, ("Bob".toList)⟩]).1
      = processMentionsLit ("hi @bob".toList)
          [⟨("bob".toList), some ("u".toList), none, ("Bob".toList)⟩] ∧
    getSubstitution ("@bob".toList) ("hi ".toList) [] ("<at>Bob</at>".toList)
      = ("<at>Bob</at>".toList) :=
  ⟨C10_literal_template_insertion.2 ("hi @bob".toList)
      [⟨("bob".toList), some ("u".toList), none, ("Bob".toList)⟩] (by decide),
   C10_literal_template_insertion.1 ("@bob".toList) ("hi ".toList) []
      ("<at>Bob</at>".toList) (by decide)⟩

end TeamsMcp
